import Mathlib

/-!
# Verification of the parsedoc ingestion plugin record-extraction core

Shallow embedding of `src/index.ts`: the tree walk (`rehypeLyra` /
`visitChildren`), the merge-strategy record accumulator (`addRecords`,
`isRecordMergeable`, `addContentToLastRecord`, `pathWithoutLastIndex`),
the transform reconciliation (`applyChanges`, `prepareNode`) and the
`populate` dispatch on the file type.

Conventions of the embedding:
* JavaScript strings are Lean `String`s; the two string-slicing idioms of
  the source (`path.substring(0, path.lastIndexOf("."))` on line 151 and
  `path.slice(0, path.lastIndexOf("["))` on lines 184-185) are embedded by
  `substringToLastDot` and `pathWithoutLastIndex`, including the JavaScript
  behaviour when the needle is absent (`lastIndexOf` returns `-1`;
  `substring(0,-1)` clamps to the empty string while `slice(0,-1)` drops
  the final character).
* The mutable `records` array threaded through the walk becomes an explicit
  `List` argument that each function returns updated.
* hast trees are the inductive `Content` (text / element / other, where
  `other` stands for the node kinds without a `tagName`, i.e. comments and
  doctypes, which `visitChildren` skips on line 112).
* The `type` field of a record is `Option String` because the source reads
  `(parent as Element).tagName`, which is `undefined` (here `none`) when the
  parent is the document root rather than an element.
* HTML serialization and fragment re-parsing (`toHtml` / `fromHtml`) are
  external libraries (spec section 6); `applyChanges` takes them as
  function parameters.
-/

/-- `export type MergeStrategy = "merge" | "split" | "both"` (line 17). -/
inductive MergeStrategy where
  | merge
  | split
  | both
deriving DecidableEq, Repr

/-- `DefaultSchemaElement = { type: string; content: string; id: string }`
(lines 25-29).  `type` is `Option String`: it receives
`(parent as Element).tagName`, which is JavaScript `undefined` (`none`)
when the parent is the `Root` node. -/
structure DefaultSchemaElement where
  type : Option String
  content : String
  id : String
deriving DecidableEq, Repr

/-- JS `path.substring(0, path.lastIndexOf("."))` (line 151): the prefix of
`path` strictly before the last `'.'`, and `""` when `path` has no `'.'`
(in JS `lastIndexOf` yields `-1` and `substring(0, -1)` clamps to
`substring(0, 0) = ""`). -/
def substringToLastDot (path : String) : String :=
  ⟨((path.data.reverse.dropWhile (fun c => c ≠ '.')).drop 1).reverse⟩

/-- `pathWithoutLastIndex` (lines 183-186): JS
`path.slice(0, path.lastIndexOf("["))`.  When `path` contains `'['` this is
the prefix strictly before the last `'['`; otherwise `lastIndexOf` yields
`-1` and `slice(0, -1)` drops the last character. -/
def pathWithoutLastIndex (path : String) : String :=
  if '[' ∈ path.data then
    ⟨((path.data.reverse.dropWhile (fun c => c ≠ '[')).drop 1).reverse⟩
  else
    ⟨path.data.dropLast⟩

/-- `isRecordMergeable(path, tag, records)` (lines 175-181): false on an
empty list, otherwise compares the index-stripped `path` with the
index-stripped id of the last record and the tag with its type. -/
def isRecordMergeable (path : String) (tag : Option String)
    (records : List DefaultSchemaElement) : Bool :=
  match records.getLast? with
  | none => false
  | some lastRecord =>
    let parentPath := pathWithoutLastIndex path
    let lastPath := pathWithoutLastIndex lastRecord.id
    parentPath == lastPath && tag == lastRecord.type

/-- `addContentToLastRecord(records, content)` (lines 188-190):
``records[records.length - 1].content += ` ${content}` ``.  The source only
calls it on a non-empty list (guarded by `isRecordMergeable`); on `[]` the
embedding returns the list unchanged. -/
def addContentToLastRecord (records : List DefaultSchemaElement)
    (content : String) : List DefaultSchemaElement :=
  match records.getLast? with
  | none => records
  | some lastRecord =>
    records.dropLast ++ [{ lastRecord with content := lastRecord.content ++ " " ++ content }]

/-- `records.splice(records.length - 1, 0, newRecord)` (line 169): insert
`newRecord` immediately before the last element. -/
def spliceBeforeLast (records : List DefaultSchemaElement)
    (newRecord : DefaultSchemaElement) : List DefaultSchemaElement :=
  records.dropLast ++ newRecord :: records.drop (records.length - 1)

/-- `addRecords(content, type, path, records, mergeStrategy)`
(lines 144-173), returning the updated record list instead of mutating. -/
def addRecords (content : String) (type : Option String) (path : String)
    (records : List DefaultSchemaElement) (mergeStrategy : MergeStrategy) :
    List DefaultSchemaElement :=
  let parentPath := substringToLastDot path
  let newRecord : DefaultSchemaElement := { type := type, content := content, id := parentPath }
  match mergeStrategy with
  | .merge =>
    if !isRecordMergeable parentPath type records then
      records ++ [newRecord]
    else
      addContentToLastRecord records content
  | .split =>
    records ++ [newRecord]
  | .both =>
    if !isRecordMergeable parentPath type records then
      records ++ [newRecord, newRecord]
    else
      addContentToLastRecord (spliceBeforeLast records newRecord) content

/-- hast `Content` nodes as the walk distinguishes them (lines 107-118):
text nodes with a `value`, element nodes with a `tagName` and `children`,
and `other` for the remaining kinds (comment, doctype), which have no
`tagName` and are skipped by the walk. -/
inductive Content where
  | text (value : String)
  | element (tagName : String) (children : List Content)
  | other
deriving Repr

mutual

/-- `visitChildren(node, parent, path, records, options)` (lines 100-119)
specialised to `options.transformFn === undefined` (the default; the
transform reconciliation `applyChanges` is modelled separately).
`parentTag` is `(parent as Element).tagName`: `none` when the parent is the
document root. -/
def visitChildren (strategy : MergeStrategy) :
    Content → Option String → String → List DefaultSchemaElement →
    List DefaultSchemaElement
  | .text v, parentTag, path, records => addRecords v parentTag path records strategy
  | .other, _, _, records => records
  | .element tagName children, _, path, records =>
    visitAll strategy children tagName path 0 records

/-- The `transformedNode.children.forEach((child, i) => visitChildren(child,
transformedNode, path + "." + tagName + "[" + i + "]", ...))` loop
(lines 116-118), threading the record list left to right. -/
def visitAll (strategy : MergeStrategy) :
    List Content → String → String → Nat → List DefaultSchemaElement →
    List DefaultSchemaElement
  | [], _, _, _, records => records
  | c :: cs, tagName, path, i, records =>
    visitAll strategy cs tagName path (i + 1)
      (visitChildren strategy c (some tagName)
        (path ++ "." ++ tagName ++ "[" ++ toString i ++ "]") records)

end

/-- The `tree.children.forEach((child, i) => visitChildren(child, tree,
basePath + "root[" + i + "]", ...))` loop of `rehypeLyra` (lines 92-98).
The parent is the `Root`, so the children are visited with `parentTag =
none`. -/
def rehypeLyraAux (strategy : MergeStrategy) (basePath : String) :
    List Content → Nat → List DefaultSchemaElement → List DefaultSchemaElement
  | [], _, records => records
  | c :: cs, i, records =>
    rehypeLyraAux strategy basePath cs (i + 1)
      (visitChildren strategy c none (basePath ++ "root[" ++ toString i ++ "]") records)

/-- `rehypeLyra(records, options)` (lines 92-98) run on a parsed tree: walks
every top-level child with path `(options?.basePath ?? "") + "root[" + i + "]"`
and returns the accumulated records (the source mutates the `records` array
it was given, starting empty in `populate`, line 69). -/
def rehypeLyra (basePath : Option String) (strategy : MergeStrategy)
    (tree : List Content) : List DefaultSchemaElement :=
  rehypeLyraAux strategy (basePath.getD "") tree 0 []

/-- Instrumented view of one text-node visit: the `value` of the text node,
the `path` argument `visitChildren` received for it, and `parent`, which is
`some (parentPath, parentTagName)` when the parent is an element visited
with path `parentPath`, and `none` when the parent is the document root. -/
structure TextEvent where
  value : String
  path : String
  parent : Option (String × String)
deriving DecidableEq, Repr

mutual

/-- The depth-first list of text-node visits performed by `visitChildren`
on a subtree, in visitation order (instrumentation of lines 100-119: same
recursion, recording the text visits instead of mutating `records`). -/
def textEvents : Content → Option (String × String) → String → List TextEvent
  | .text v, parent, path => [⟨v, path, parent⟩]
  | .other, _, _ => []
  | .element tagName children, _, path => textEventsList children tagName path 0

/-- Text visits of a child list, mirroring the `forEach` of lines 116-118. -/
def textEventsList : List Content → String → String → Nat → List TextEvent
  | [], _, _, _ => []
  | c :: cs, tagName, path, i =>
    textEvents c (some (path, tagName))
      (path ++ "." ++ tagName ++ "[" ++ toString i ++ "]") ++
    textEventsList cs tagName path (i + 1)

end

/-- Text visits of the whole tree, mirroring `rehypeLyra` (lines 92-98). -/
def rootTextEventsAux (basePath : String) :
    List Content → Nat → List TextEvent
  | [], _ => []
  | c :: cs, i =>
    textEvents c none (basePath ++ "root[" ++ toString i ++ "]") ++
    rootTextEventsAux basePath cs (i + 1)

/-- The depth-first, left-to-right list of text-node visits of one
`rehypeLyra` run. -/
def rootTextEvents (basePath : Option String) (tree : List Content) :
    List TextEvent :=
  rootTextEventsAux (basePath.getD "") tree 0

/-- Replaying one text visit against the record list: exactly the
`addRecords` call of line 108 (the record `type` is the parent element's
tag name, `none` when the parent is the root). -/
def stepRecord (strategy : MergeStrategy) (records : List DefaultSchemaElement)
    (e : TextEvent) : List DefaultSchemaElement :=
  addRecords e.value (e.parent.map Prod.snd) e.path records strategy

/-- Replaying a list of text visits in order. -/
def foldRecords (strategy : MergeStrategy) (events : List TextEvent)
    (records : List DefaultSchemaElement) : List DefaultSchemaElement :=
  events.foldl (stepRecord strategy) records

mutual

/-- Number of text nodes in a subtree. -/
def countTexts : Content → Nat
  | .text _ => 1
  | .other => 0
  | .element _ children => countTextsList children

/-- Number of text nodes in a list of subtrees. -/
def countTextsList : List Content → Nat
  | [] => 0
  | c :: cs => countTexts c + countTextsList cs

end

/-- `NodeContent = { tag, raw, content }` (lines 192-196). -/
structure NodeContent where
  tag : String
  raw : String
  content : String
deriving DecidableEq, Repr

/-- An element node viewed as its `tagName` and `children`, the shape the
`as Element` casts of the source assume. -/
structure ElementNode where
  tagName : String
  children : List Content
deriving Repr

mutual

/-- hast-util-to-string (the `toString` import, line 10): the flattened
text of a node — a text node's value, the concatenation over an element's
children; comment and doctype nodes contribute nothing. -/
def hastToString : Content → String
  | .text v => v
  | .other => ""
  | .element _ children => hastToStringList children

/-- Flattened text of a child list, in order. -/
def hastToStringList : List Content → String
  | [] => ""
  | c :: cs => hastToString c ++ hastToStringList cs

end

/-- `toString(node)` on an element (lines 129 and 138). -/
def elementToString (node : ElementNode) : String :=
  hastToStringList node.children

/-- hast-util-from-string (`fromString(node, value)`, line 139): replace
the node's children with a single text node holding `value`. -/
def fromString (node : ElementNode) (value : String) : ElementNode :=
  { node with children := [Content.text value] }

/-- `prepareNode(node)` (lines 127-132).  The serializer `toHtml` is the
external hast-util-to-html library, taken as a parameter. -/
def prepareNode (toHtml : ElementNode → String) (node : ElementNode) :
    NodeContent :=
  { tag := node.tagName, content := elementToString node, raw := toHtml node }

/-- `applyChanges(node, transformedNode)` (lines 134-142).  `toHtml` is the
external serializer; `fromHtmlFirst` stands for
`fromHtml(raw, {fragment: true}).children[0] as Element` (line 136), the
external fragment parser followed by taking the first parsed node. -/
def applyChanges (toHtml : ElementNode → String)
    (fromHtmlFirst : String → ElementNode)
    (node : ElementNode) (transformedNode : NodeContent) : ElementNode :=
  if toHtml node ≠ transformedNode.raw then fromHtmlFirst transformedNode.raw
  else
    let node1 := { node with tagName := transformedNode.tag }
    if elementToString node1 ≠ transformedNode.content then
      fromString node1 transformedNode.content
    else
      node1

/-- `applyTransform(node, transformFn)` (lines 121-125). -/
def applyTransform (toHtml : ElementNode → String)
    (fromHtmlFirst : String → ElementNode)
    (node : ElementNode) (transformFn : NodeContent → NodeContent) : ElementNode :=
  applyChanges toHtml fromHtmlFirst node (transformFn (prepareNode toHtml node))

/-- Outcome of one `populate` call (lines 63-90).  Reading and parsing of
the raw bytes are delegated to external libraries (spec section 6), so the
embedding receives the already-parsed tree.  `insertedBatch` is the normal
path reaching `insertBatch(db, records)` (line 89); `earlyReturn` is the
`default` branch `return fileType` (lines 84-88), which resolves the
promise with the file type value without inserting anything; `rejected`
stands for a rejected promise — no statement of `populate` itself ever
rejects, the constructor exists to make failure expressible. -/
inductive PopulateResult where
  | insertedBatch (records : List DefaultSchemaElement)
  | earlyReturn (fileType : String)
  | rejected (message : String)
deriving DecidableEq, Repr

/-- `populate(db, data, fileType, options)` (lines 63-90): the `switch` on
`fileType`.  Both the `"md"` and `"html"` branches run the minified parsed
tree through `rehypeLyra` and insert the collected records; any other file
type takes the `default` branch `return fileType`. -/
def populate (fileType : String) (tree : List Content)
    (basePath : Option String) (strategy : MergeStrategy) : PopulateResult :=
  if fileType = "md" then .insertedBatch (rehypeLyra basePath strategy tree)
  else if fileType = "html" then .insertedBatch (rehypeLyra basePath strategy tree)
  else .earlyReturn fileType

/-- Whether the call rejected (threw). -/
def isRejected : PopulateResult → Bool
  | .rejected _ => true
  | _ => false

/-- The records handed to `insertBatch`, if the call reached it. -/
def insertedRecords : PopulateResult → Option (List DefaultSchemaElement)
  | .insertedBatch records => some records
  | _ => none

mutual

/-- All element tag names in the subtree are dot-free (well-formedness of
HTML tag names; the path builder separates segments with dots, so a dotted
tag name would corrupt the parent-path computation). -/
def tagsDotFree : Content → Bool
  | .text _ => true
  | .other => true
  | .element tagName children =>
    decide ('.' ∉ tagName.data) && tagsDotFreeList children

/-- All element tag names in the forest are dot-free. -/
def tagsDotFreeList : List Content → Bool
  | [] => true
  | c :: cs => tagsDotFree c && tagsDotFreeList cs

end

/-- The shape the walk guarantees for the `path` argument of a visit whose
parent data is `parent`: for an element parent `(pp, pt)` the path is
`pp + "." + pt + "[" + i + "]"` with a dot-free `pt`. -/
def parentPathOK : Option (String × String) → String → Prop
  | none, _ => True
  | some (pp, pt), path =>
    '.' ∉ pt.data ∧ ∃ i : Nat, path = pp ++ "." ++ pt ++ "[" ++ toString i ++ "]"

/-- One call of `visitChildren` as issued by its caller: the parent data
(`none` for the root caller `rehypeLyra`, `some (parentPath, parentTag)`
for an element), the sibling index `i` of the `forEach`, and the `path`
argument actually passed. -/
structure VisitCall where
  parent : Option (String × String)
  index : Nat
  path : String
deriving DecidableEq, Repr

mutual

/-- Log of every `visitChildren` call in a subtree, in call order: the
node's own call entry (built by its caller with the given data) followed by
the calls `visitChildren` issues for the node's children (lines 116-118). -/
def nodeLog : Content → Option (String × String) → Nat → String → List VisitCall
  | .text _, parent, i, path => [⟨parent, i, path⟩]
  | .other, parent, i, path => [⟨parent, i, path⟩]
  | .element tagName children, parent, i, path =>
    ⟨parent, i, path⟩ :: childLogs children tagName path 0

/-- Calls issued for the children of an element visited with path `path`
and tag `tagName`, mirroring the `forEach` of lines 116-118. -/
def childLogs : List Content → String → String → Nat → List VisitCall
  | [], _, _, _ => []
  | c :: cs, tagName, path, i =>
    nodeLog c (some (path, tagName)) i
      (path ++ "." ++ tagName ++ "[" ++ toString i ++ "]") ++
    childLogs cs tagName path (i + 1)

end

/-- Calls issued by `rehypeLyra` for the top-level children (lines 92-98). -/
def rootLogAux (basePath : String) : List Content → Nat → List VisitCall
  | [], _ => []
  | c :: cs, i =>
    nodeLog c none i (basePath ++ "root[" ++ toString i ++ "]") ++
    rootLogAux basePath cs (i + 1)

/-- Log of every `visitChildren` call of one `rehypeLyra` run. -/
def rootLog (basePath : Option String) (tree : List Content) : List VisitCall :=
  rootLogAux (basePath.getD "") tree 0

/-- The path formula a visit call must satisfy: root callers pass
`basePath + "root[" + i + "]"`, element callers pass
`parentPath + "." + parentTag + "[" + i + "]"`. -/
def callPathOK (basePath : String) (e : VisitCall) : Prop :=
  match e.parent with
  | none => e.path = basePath ++ "root[" ++ toString e.index ++ "]"
  | some (pp, pt) => e.path = pp ++ "." ++ pt ++ "[" ++ toString e.index ++ "]"

/-- A record together with the DFS visitation indices of the text nodes
whose contents it accumulated (instrumentation for order preservation). -/
structure TracedRecord where
  record : DefaultSchemaElement
  origins : List Nat
deriving DecidableEq, Repr

/-- Forget the instrumentation. -/
def eraseOrigins (rs : List TracedRecord) : List DefaultSchemaElement :=
  rs.map (·.record)

/-- `addContentToLastRecord` on traced records: the merge target also
acquires the merged-in text node's index `k`. -/
def addContentToLastRecordT (rs : List TracedRecord) (content : String)
    (k : Nat) : List TracedRecord :=
  match rs.getLast? with
  | none => rs
  | some l =>
    rs.dropLast ++
      [⟨{ l.record with content := l.record.content ++ " " ++ content },
        l.origins ++ [k]⟩]

/-- `spliceBeforeLast` on traced records. -/
def spliceBeforeLastT (rs : List TracedRecord) (r : TracedRecord) :
    List TracedRecord :=
  rs.dropLast ++ r :: rs.drop (rs.length - 1)

/-- `addRecords` on traced records: identical branching (the mergeability
test reads the erased records), with the new record originating from the
text node visited at DFS index `k`. -/
def addRecordsT (k : Nat) (content : String) (type : Option String)
    (path : String) (rs : List TracedRecord) (strategy : MergeStrategy) :
    List TracedRecord :=
  let parentPath := substringToLastDot path
  let newRecord : TracedRecord := ⟨⟨type, content, parentPath⟩, [k]⟩
  match strategy with
  | .merge =>
    if !isRecordMergeable parentPath type (eraseOrigins rs) then
      rs ++ [newRecord]
    else
      addContentToLastRecordT rs content k
  | .split =>
    rs ++ [newRecord]
  | .both =>
    if !isRecordMergeable parentPath type (eraseOrigins rs) then
      rs ++ [newRecord, newRecord]
    else
      addContentToLastRecordT (spliceBeforeLastT rs newRecord) content k

/-- Replay of the text visits on traced records, numbering the visits in
DFS order starting at `k`. -/
def foldRecordsT (strategy : MergeStrategy) :
    List TextEvent → Nat → List TracedRecord → List TracedRecord
  | [], _, rs => rs
  | e :: events, k, rs =>
    foldRecordsT strategy events (k + 1)
      (addRecordsT k e.value (e.parent.map Prod.snd) e.path rs strategy)

/-- Every origin index recorded so far is below the next DFS index. -/
def originsBound (k : Nat) (rs : List TracedRecord) : Prop :=
  ∀ r ∈ rs, ∀ a ∈ r.origins, a < k

/-- Order compatibility of two records: if they share no originating text
node, then every text node of the first was visited strictly before every
text node of the second. -/
def beforeOrigins (r r' : TracedRecord) : Prop :=
  (∀ a ∈ r.origins, a ∉ r'.origins) →
    ∀ a ∈ r.origins, ∀ b ∈ r'.origins, a < b

theorem foldRecords_append (strategy : MergeStrategy) (e₁ e₂ : List TextEvent)
    (records : List DefaultSchemaElement) :
    foldRecords strategy (e₁ ++ e₂) records =
      foldRecords strategy e₂ (foldRecords strategy e₁ records) :=
  List.foldl_append _ _ _ _

mutual

theorem visitChildren_eq_foldRecords (strategy : MergeStrategy) :
    ∀ (node : Content) (parent : Option (String × String)) (path : String)
      (records : List DefaultSchemaElement),
      visitChildren strategy node (parent.map Prod.snd) path records =
        foldRecords strategy (textEvents node parent path) records
  | .text v, parent, path, records => by
    simp [visitChildren, textEvents, foldRecords, stepRecord]
  | .other, _, _, records => by
    simp [visitChildren, textEvents, foldRecords]
  | .element tagName children, parent, path, records => by
    rw [visitChildren, textEvents]
    exact visitAll_eq_foldRecords strategy children tagName path 0 records

theorem visitAll_eq_foldRecords (strategy : MergeStrategy) :
    ∀ (cs : List Content) (tagName path : String) (i : Nat)
      (records : List DefaultSchemaElement),
      visitAll strategy cs tagName path i records =
        foldRecords strategy (textEventsList cs tagName path i) records
  | [], _, _, _, records => by
    simp [visitAll, textEventsList, foldRecords]
  | c :: cs, tagName, path, i, records => by
    rw [visitAll, textEventsList, foldRecords_append]
    have hc := visitChildren_eq_foldRecords strategy c (some (path, tagName))
      (path ++ "." ++ tagName ++ "[" ++ toString i ++ "]") records
    simp only [Option.map_some'] at hc
    rw [← hc]
    exact visitAll_eq_foldRecords strategy cs tagName path (i + 1) _

end

theorem rehypeLyraAux_eq_foldRecords (strategy : MergeStrategy) (basePath : String) :
    ∀ (cs : List Content) (i : Nat) (records : List DefaultSchemaElement),
      rehypeLyraAux strategy basePath cs i records =
        foldRecords strategy (rootTextEventsAux basePath cs i) records
  | [], _, records => by simp [rehypeLyraAux, rootTextEventsAux, foldRecords]
  | c :: cs, i, records => by
    rw [rehypeLyraAux, rootTextEventsAux, foldRecords_append]
    have hc := visitChildren_eq_foldRecords strategy c none
      (basePath ++ "root[" ++ toString i ++ "]") records
    simp only [Option.map_none'] at hc
    rw [← hc]
    exact rehypeLyraAux_eq_foldRecords strategy basePath cs (i + 1) _

/-- The walk is the left fold of `addRecords` over the depth-first text
visits. -/
theorem rehypeLyra_eq_foldRecords (basePath : Option String)
    (strategy : MergeStrategy) (tree : List Content) :
    rehypeLyra basePath strategy tree =
      foldRecords strategy (rootTextEvents basePath tree) [] :=
  rehypeLyraAux_eq_foldRecords strategy (basePath.getD "") tree 0 []

mutual

theorem textEvents_length :
    ∀ (node : Content) (parent : Option (String × String)) (path : String),
      (textEvents node parent path).length = countTexts node
  | .text v, _, _ => by simp [textEvents, countTexts]
  | .other, _, _ => by simp [textEvents, countTexts]
  | .element tagName children, parent, path => by
    rw [textEvents, countTexts]
    exact textEventsList_length children tagName path 0

theorem textEventsList_length :
    ∀ (cs : List Content) (tagName path : String) (i : Nat),
      (textEventsList cs tagName path i).length = countTextsList cs
  | [], _, _, _ => by simp [textEventsList, countTextsList]
  | c :: cs, tagName, path, i => by
    rw [textEventsList, countTextsList, List.length_append,
      textEvents_length c, textEventsList_length cs tagName path (i + 1)]

end

theorem rootTextEventsAux_length (basePath : String) :
    ∀ (cs : List Content) (i : Nat),
      (rootTextEventsAux basePath cs i).length = countTextsList cs
  | [], _ => by simp [rootTextEventsAux, countTextsList]
  | c :: cs, i => by
    rw [rootTextEventsAux, countTextsList, List.length_append,
      textEvents_length c, rootTextEventsAux_length basePath cs (i + 1)]

/-- The walk visits exactly the text nodes of the tree. -/
theorem rootTextEvents_length (basePath : Option String) (tree : List Content) :
    (rootTextEvents basePath tree).length = countTextsList tree :=
  rootTextEventsAux_length (basePath.getD "") tree 0

theorem dropWhile_append_of_forall {α : Type} (p : α → Bool) (l₁ l₂ : List α)
    (h : ∀ a ∈ l₁, p a = true) :
    (l₁ ++ l₂).dropWhile p = l₂.dropWhile p := by
  induction l₁ with
  | nil => simp
  | cons a l ih =>
    simp only [List.cons_append, List.dropWhile_cons]
    rw [h a (List.mem_cons_self a l), if_pos rfl]
    exact ih fun b hb => h b (List.mem_cons_of_mem a hb)

theorem stringDataAppend (s t : String) : (s ++ t).data = s.data ++ t.data := by
  cases s; cases t; rfl

/-- Appending a dot-free suffix does not change where the last dot is. -/
theorem substringToLastDot_append (b s : String) (h : '.' ∉ s.data) :
    substringToLastDot (b ++ s) = substringToLastDot b := by
  unfold substringToLastDot
  rw [stringDataAppend, List.reverse_append,
    dropWhile_append_of_forall _ s.data.reverse b.data.reverse]
  intro a ha
  rw [List.mem_reverse] at ha
  have : a ≠ '.' := fun hEq => h (hEq ▸ ha)
  simpa using this

/-- Stripping at the last dot of a string that ends with a dot returns the
part before that dot. -/
theorem substringToLastDot_append_dot (b : String) :
    substringToLastDot (b ++ ".") = b := by
  unfold substringToLastDot
  rw [stringDataAppend, List.reverse_append]
  simp

theorem digitChar_safe : ∀ m : Nat, m < 10 →
    Nat.digitChar m ≠ '.' ∧ Nat.digitChar m ≠ '[' := by decide

theorem toDigitsCore_safe :
    ∀ (f n : Nat) (ds : List Char), (∀ c ∈ ds, c ≠ '.' ∧ c ≠ '[') →
      ∀ c ∈ Nat.toDigitsCore 10 f n ds, c ≠ '.' ∧ c ≠ '[' := by
  intro f
  induction f with
  | zero => intro n ds h c hc; exact h c hc
  | succ f ih =>
    intro n ds h c hc
    rw [Nat.toDigitsCore] at hc
    have hd : ∀ c ∈ Nat.digitChar (n % 10) :: ds, c ≠ '.' ∧ c ≠ '[' := by
      intro c hc
      rcases List.mem_cons.mp hc with hEq | hMem
      · exact hEq ▸ digitChar_safe (n % 10) (Nat.mod_lt _ (by decide))
      · exact h c hMem
    by_cases hz : n / 10 = 0
    · rw [if_pos hz] at hc
      exact hd c hc
    · rw [if_neg hz] at hc
      exact ih (n / 10) _ hd c hc

/-- The decimal rendering of a natural number contains neither a dot nor an
opening bracket. -/
theorem toStringNat_safe (n : Nat) :
    ∀ c ∈ (toString n).data, c ≠ '.' ∧ c ≠ '[' := by
  intro c hc
  exact toDigitsCore_safe (n + 1) n [] (by intro c hc; cases hc) c hc

theorem toStringNat_no_dot (n : Nat) : '.' ∉ (toString n).data := by
  intro h
  exact (toStringNat_safe n '.' h).1 rfl

/-- The path segment `"root[" + i + "]"` contains no dot. -/
theorem rootSegment_no_dot (i : Nat) :
    '.' ∉ ("root[" ++ toString i ++ "]").data := by
  rw [stringDataAppend, stringDataAppend]
  intro h
  rcases List.mem_append.mp h with h | h
  · rcases List.mem_append.mp h with h | h
    · simp at h
    · exact toStringNat_no_dot i h
  · simp at h

/-- The appended segment `"." + tag + "[" + i + "]"` of a child path: when
the tag is dot-free, stripping the child path at its last dot recovers the
parent path (the dot introduced by the path builder is the last one). -/
theorem substringToLastDot_childPath (p t : String) (i : Nat)
    (ht : '.' ∉ t.data) :
    substringToLastDot (p ++ "." ++ t ++ "[" ++ toString i ++ "]") = p := by
  have h1 : p ++ "." ++ t ++ "[" ++ toString i ++ "]" =
      (p ++ ".") ++ (t ++ "[" ++ toString i ++ "]") := by
    simp [String.append_assoc]
  rw [h1, substringToLastDot_append, substringToLastDot_append_dot]
  rw [stringDataAppend, stringDataAppend, stringDataAppend]
  intro h
  rcases List.mem_append.mp h with h | h
  · rcases List.mem_append.mp h with h | h
    · rcases List.mem_append.mp h with h | h
      · exact ht h
      · simp at h
    · exact toStringNat_no_dot i h
  · simp at h

/-- `pathWithoutLastIndex` removes exactly a trailing `"[" + i + "]"`
portion. -/
theorem pathWithoutLastIndex_strip (s : String) (i : Nat) :
    pathWithoutLastIndex (s ++ "[" ++ toString i ++ "]") = s := by
  unfold pathWithoutLastIndex
  rw [if_pos]
  · rw [stringDataAppend, stringDataAppend, List.reverse_append,
      List.reverse_append,
      dropWhile_append_of_forall _ "]".data.reverse _ ?_,
      dropWhile_append_of_forall _ (toString i).data.reverse _ ?_,
      stringDataAppend, List.reverse_append]
    · simp
    · intro a ha
      rw [List.mem_reverse] at ha
      have := (toStringNat_safe i a ha).2
      simpa using this
    · intro a ha
      simp only [List.mem_reverse] at ha
      simp at ha
      simp [ha]
  · rw [stringDataAppend, stringDataAppend]
    simp

theorem isRecordMergeable_nil (path : String) (tag : Option String) :
    isRecordMergeable path tag [] = false := rfl

theorem addContentToLastRecord_concat (rest : List DefaultSchemaElement)
    (lastRecord : DefaultSchemaElement) (content : String) :
    addContentToLastRecord (rest ++ [lastRecord]) content =
      rest ++ [{ lastRecord with content := lastRecord.content ++ " " ++ content }] := by
  unfold addContentToLastRecord
  rw [List.getLast?_concat, List.dropLast_concat]

theorem spliceBeforeLast_concat (rest : List DefaultSchemaElement)
    (lastRecord r : DefaultSchemaElement) :
    spliceBeforeLast (rest ++ [lastRecord]) r = rest ++ [r, lastRecord] := by
  unfold spliceBeforeLast
  rw [List.dropLast_concat, List.length_append, List.length_singleton,
    Nat.add_sub_cancel, List.drop_left]

theorem addRecords_merge_of_not (content : String) (type : Option String)
    (path : String) (records : List DefaultSchemaElement)
    (h : isRecordMergeable (substringToLastDot path) type records = false) :
    addRecords content type path records .merge =
      records ++ [⟨type, content, substringToLastDot path⟩] := by
  simp [addRecords, h]

theorem addRecords_merge_of_yes (content : String) (type : Option String)
    (path : String) (rest : List DefaultSchemaElement)
    (lastRecord : DefaultSchemaElement)
    (h : isRecordMergeable (substringToLastDot path) type (rest ++ [lastRecord]) = true) :
    addRecords content type path (rest ++ [lastRecord]) .merge =
      rest ++ [{ lastRecord with content := lastRecord.content ++ " " ++ content }] := by
  simp [addRecords, h, addContentToLastRecord_concat]

theorem addRecords_split_eq (content : String) (type : Option String)
    (path : String) (records : List DefaultSchemaElement) :
    addRecords content type path records .split =
      records ++ [⟨type, content, substringToLastDot path⟩] := rfl

theorem addRecords_both_of_not (content : String) (type : Option String)
    (path : String) (records : List DefaultSchemaElement)
    (h : isRecordMergeable (substringToLastDot path) type records = false) :
    addRecords content type path records .both =
      records ++ [⟨type, content, substringToLastDot path⟩,
        ⟨type, content, substringToLastDot path⟩] := by
  simp [addRecords, h]

theorem addRecords_both_of_yes (content : String) (type : Option String)
    (path : String) (rest : List DefaultSchemaElement)
    (lastRecord : DefaultSchemaElement)
    (h : isRecordMergeable (substringToLastDot path) type (rest ++ [lastRecord]) = true) :
    addRecords content type path (rest ++ [lastRecord]) .both =
      rest ++ [⟨type, content, substringToLastDot path⟩,
        { lastRecord with content := lastRecord.content ++ " " ++ content }] := by
  have hsplice := spliceBeforeLast_concat rest lastRecord
    ⟨type, content, substringToLastDot path⟩
  simp only [addRecords, h, Bool.not_true, Bool.false_eq_true, if_false, hsplice]
  have : rest ++ [⟨type, content, substringToLastDot path⟩, lastRecord] =
      (rest ++ [⟨type, content, substringToLastDot path⟩]) ++ [lastRecord] := by
    simp
  rw [this, addContentToLastRecord_concat]
  simp

/-- Claim C1: `isRecordMergeable` returns true exactly when the record list
is non-empty, the candidate tag equals the type of the last record, and the
index-stripped candidate path equals the index-stripped id of the last
record; `pathWithoutLastIndex` strips exactly a trailing `[index]` portion. -/
theorem claim_C1 (path : String) (tag : Option String)
    (records : List DefaultSchemaElement) :
    (isRecordMergeable path tag records = true ↔
      ∃ lastRecord, records.getLast? = some lastRecord ∧
        tag = lastRecord.type ∧
        pathWithoutLastIndex path = pathWithoutLastIndex lastRecord.id) ∧
    (records = [] → isRecordMergeable path tag records = false) ∧
    ∀ (s : String) (i : Nat),
      pathWithoutLastIndex (s ++ "[" ++ toString i ++ "]") = s := by
  refine ⟨?_, ?_, fun s i => pathWithoutLastIndex_strip s i⟩
  · unfold isRecordMergeable
    cases hLast : records.getLast? with
    | none => simp
    | some lastRecord =>
      simp only [Bool.and_eq_true, beq_iff_eq]
      constructor
      · rintro ⟨hPath, hTag⟩
        exact ⟨lastRecord, rfl, hTag, hPath⟩
      · rintro ⟨r, hr, hTag, hPath⟩
        cases Option.some.inj hr
        exact ⟨hPath, hTag⟩
  · intro h
    subst h
    rfl

/-- Claim C1 witness: concrete mergeable and non-mergeable inputs, and a
concrete index-stripping. -/
theorem claim_C1_witness :
    isRecordMergeable "root[0].div[1]" (some "p")
      [⟨some "p", "A", "root[0].div[0]"⟩] = true ∧
    isRecordMergeable "root[0]" (some "p") [] = false ∧
    pathWithoutLastIndex ("root[0].div" ++ "[" ++ toString 1 ++ "]") = "root[0].div" :=
  ⟨(claim_C1 "root[0].div[1]" (some "p") [⟨some "p", "A", "root[0].div[0]"⟩]).1.mpr
      ⟨⟨some "p", "A", "root[0].div[0]"⟩, by decide, rfl, by decide⟩,
    (claim_C1 "root[0]" (some "p") []).2.1 rfl,
    (claim_C1 "root[0]" (some "p") []).2.2 "root[0].div" 1⟩

/-- Claim C2: under the `merge` strategy a mergeable call extends the last
record's content in place with a space and the new content (adding no
record), a non-mergeable call appends exactly the record
`{type, content, id: parentPath}`, and two adjacent mergeable texts A and B
produce exactly one record with content `A ++ " " ++ B`. -/
theorem claim_C2 :
    (∀ (content : String) (type : Option String) (path : String)
        (rest : List DefaultSchemaElement) (lastRecord : DefaultSchemaElement),
      isRecordMergeable (substringToLastDot path) type (rest ++ [lastRecord]) = true →
      addRecords content type path (rest ++ [lastRecord]) .merge =
        rest ++ [{ lastRecord with content := lastRecord.content ++ " " ++ content }]) ∧
    (∀ (content : String) (type : Option String) (path : String)
        (records : List DefaultSchemaElement),
      isRecordMergeable (substringToLastDot path) type records = false →
      addRecords content type path records .merge =
        records ++ [⟨type, content, substringToLastDot path⟩]) ∧
    (∀ (A B : String) (type : Option String) (p₁ p₂ : String),
      isRecordMergeable (substringToLastDot p₂) type
        [⟨type, A, substringToLastDot p₁⟩] = true →
      addRecords B type p₂ (addRecords A type p₁ [] .merge) .merge =
        [⟨type, A ++ " " ++ B, substringToLastDot p₁⟩]) := by
  refine ⟨fun c t p rest lastRecord h => addRecords_merge_of_yes c t p rest lastRecord h,
    fun c t p records h => addRecords_merge_of_not c t p records h,
    fun A B t p₁ p₂ h => ?_⟩
  have h1 : addRecords A t p₁ [] .merge = [⟨t, A, substringToLastDot p₁⟩] :=
    addRecords_merge_of_not A t p₁ [] rfl
  rw [h1]
  have h2 := addRecords_merge_of_yes B t p₂ [] ⟨t, A, substringToLastDot p₁⟩
    (by simpa using h)
  simpa using h2

/-- Claim C2 witness: a concrete mergeable call, a concrete non-mergeable
call, and the concrete A-B merge. -/
theorem claim_C2_witness :
    addRecords "B" (some "p") "root[0].div[1].p[0]"
      [⟨some "p", "A", "root[0].div[0]"⟩] .merge =
      [⟨some "p", "A B", "root[0].div[0]"⟩] ∧
    addRecords "A" (some "p") "root[0].div[0].p[0]" [] .merge =
      [⟨some "p", "A", "root[0].div[0]"⟩] ∧
    addRecords "B" (some "p") "root[0].div[1].p[0]"
      (addRecords "A" (some "p") "root[0].div[0].p[0]" [] .merge) .merge =
      [⟨some "p", "A B", "root[0].div[0]"⟩] :=
  ⟨((claim_C2.1 "B" (some "p") "root[0].div[1].p[0]" []
      ⟨some "p", "A", "root[0].div[0]"⟩) (by decide)).trans (by decide),
    (claim_C2.2.1 "A" (some "p") "root[0].div[0].p[0]" [] (by decide)).trans (by decide),
    ((claim_C2.2.2 "A" "B" (some "p") "root[0].div[0].p[0]" "root[0].div[1].p[0]")
      (by decide)).trans (by decide)⟩

/-- Claim C3: under the `both` strategy a mergeable call inserts a
standalone copy of the current record just before the last record and
appends the content to the last record; a non-mergeable call pushes the new
record twice; two adjacent mergeable `<p>` texts "A" and "B" yield exactly
the three records `{p,A}`, `{p,B}`, `{p,"A B"}`. -/
theorem claim_C3 :
    (∀ (content : String) (type : Option String) (path : String)
        (rest : List DefaultSchemaElement) (lastRecord : DefaultSchemaElement),
      isRecordMergeable (substringToLastDot path) type (rest ++ [lastRecord]) = true →
      addRecords content type path (rest ++ [lastRecord]) .both =
        rest ++ [⟨type, content, substringToLastDot path⟩,
          { lastRecord with content := lastRecord.content ++ " " ++ content }]) ∧
    (∀ (content : String) (type : Option String) (path : String)
        (records : List DefaultSchemaElement),
      isRecordMergeable (substringToLastDot path) type records = false →
      addRecords content type path records .both =
        records ++ [⟨type, content, substringToLastDot path⟩,
          ⟨type, content, substringToLastDot path⟩]) ∧
    rehypeLyra none .both
      [Content.element "div" [Content.element "p" [Content.text "A"],
        Content.element "p" [Content.text "B"]]] =
      [⟨some "p", "A", "root[0].div[0]"⟩, ⟨some "p", "B", "root[0].div[1]"⟩,
        ⟨some "p", "A B", "root[0].div[0]"⟩] :=
  ⟨fun c t p rest lastRecord h => addRecords_both_of_yes c t p rest lastRecord h,
    fun c t p records h => addRecords_both_of_not c t p records h,
    by decide⟩

/-- Claim C3 witness: the two `both` branches at concrete inputs. -/
theorem claim_C3_witness :
    addRecords "B" (some "p") "root[0].div[1].p[0]"
      [⟨some "p", "A", "root[0].div[0]"⟩] .both =
      [⟨some "p", "B", "root[0].div[1]"⟩, ⟨some "p", "A B", "root[0].div[0]"⟩] ∧
    addRecords "A" (some "p") "root[0].div[0].p[0]" [] .both =
      [⟨some "p", "A", "root[0].div[0]"⟩, ⟨some "p", "A", "root[0].div[0]"⟩] :=
  ⟨((claim_C3.1 "B" (some "p") "root[0].div[1].p[0]" []
      ⟨some "p", "A", "root[0].div[0]"⟩) (by decide)).trans (by decide),
    (claim_C3.2.1 "A" (some "p") "root[0].div[0].p[0]" [] (by decide)).trans (by decide)⟩

theorem foldRecords_split_length (events : List TextEvent) :
    ∀ records : List DefaultSchemaElement,
      (foldRecords .split events records).length = records.length + events.length := by
  induction events with
  | nil => intro records; simp [foldRecords]
  | cons e events ih =>
    intro records
    show (foldRecords .split events (stepRecord .split records e)).length = _
    rw [ih (stepRecord .split records e)]
    have : (stepRecord .split records e).length = records.length + 1 := by
      simp [stepRecord, addRecords]
    rw [this]
    simp only [List.length_cons]
    omega

/-- Claim C4: the `split` strategy always appends exactly one record and
never modifies an existing one, so the walk yields exactly one record per
text node of the tree. -/
theorem claim_C4 :
    (∀ (content : String) (type : Option String) (path : String)
        (records : List DefaultSchemaElement),
      addRecords content type path records .split =
        records ++ [⟨type, content, substringToLastDot path⟩]) ∧
    ∀ (basePath : Option String) (tree : List Content),
      (rehypeLyra basePath .split tree).length = countTextsList tree := by
  refine ⟨fun c t p records => addRecords_split_eq c t p records, fun basePath tree => ?_⟩
  rw [rehypeLyra_eq_foldRecords, foldRecords_split_length, rootTextEvents_length]
  simp

/-- Claim C5 counterexample: at the concrete unrecognized file type "txt"
(with a non-empty document), `populate` does not reject — it resolves via
the `default` branch `return fileType` — and inserts zero records, i.e. it
completes successfully with zero records inserted, which the claim says
cannot happen. -/
theorem claim_C5_counterexample :
    populate "txt" [Content.element "p" [Content.text "A"]] none .merge =
      .earlyReturn "txt" ∧
    isRejected (populate "txt" [Content.element "p" [Content.text "A"]] none .merge) =
      false ∧
    insertedRecords (populate "txt" [Content.element "p" [Content.text "A"]] none .merge) =
      none :=
  ⟨rfl, rfl, rfl⟩

/-- Claim C5 (amended): for every input whose file type is neither "html"
nor "md", `populate` resolves successfully through the `default` branch,
returning the unrecognized file type and inserting zero records — it does
not reject or propagate an error. -/
theorem claim_C5 (fileType : String) (tree : List Content)
    (basePath : Option String) (strategy : MergeStrategy)
    (hmd : fileType ≠ "md") (hhtml : fileType ≠ "html") :
    populate fileType tree basePath strategy = .earlyReturn fileType ∧
    isRejected (populate fileType tree basePath strategy) = false ∧
    insertedRecords (populate fileType tree basePath strategy) = none := by
  rw [populate, if_neg hmd, if_neg hhtml]
  exact ⟨rfl, rfl, rfl⟩

/-- Claim C5 witness: the amended claim evaluated at file type "xml". -/
theorem claim_C5_witness :
    populate "xml" [] none .split = .earlyReturn "xml" ∧
    isRejected (populate "xml" [] none .split) = false ∧
    insertedRecords (populate "xml" [] none .split) = none :=
  claim_C5 "xml" [] none .split (by decide) (by decide)

/-- Claim C9: if the transform changed `raw`, `applyChanges` returns the
first node of the re-parsed fragment and ignores tag/content edits; if
`raw` is unchanged, the element is renamed to the returned tag and its
children are replaced by a single text node holding the returned content
exactly when that content differs from the element's flattened text. -/
theorem claim_C9 (toHtml : ElementNode → String)
    (fromHtmlFirst : String → ElementNode)
    (node : ElementNode) (transformedNode : NodeContent) :
    (toHtml node ≠ transformedNode.raw →
      applyChanges toHtml fromHtmlFirst node transformedNode =
        fromHtmlFirst transformedNode.raw ∧
      ∀ (tag content : String),
        applyChanges toHtml fromHtmlFirst node
          { transformedNode with tag := tag, content := content } =
          fromHtmlFirst transformedNode.raw) ∧
    (toHtml node = transformedNode.raw →
      (applyChanges toHtml fromHtmlFirst node transformedNode).tagName =
        transformedNode.tag ∧
      (elementToString node ≠ transformedNode.content →
        (applyChanges toHtml fromHtmlFirst node transformedNode).children =
          [Content.text transformedNode.content]) ∧
      (elementToString node = transformedNode.content →
        (applyChanges toHtml fromHtmlFirst node transformedNode).children =
          node.children)) := by
  constructor
  · intro hraw
    constructor
    · rw [applyChanges, if_pos hraw]
    · intro tag content
      rw [applyChanges, if_pos hraw]
  · intro hraw
    have hnot : ¬ toHtml node ≠ transformedNode.raw := fun h => h hraw
    have hflat : elementToString { node with tagName := transformedNode.tag } =
        elementToString node := rfl
    constructor
    · rw [applyChanges, if_neg hnot]
      by_cases hc : elementToString { node with tagName := transformedNode.tag } ≠
          transformedNode.content
      · rw [if_pos hc]; rfl
      · rw [if_neg hc]
    constructor
    · intro hcontent
      rw [applyChanges, if_neg hnot, if_pos (hflat ▸ hcontent)]
      rfl
    · intro hcontent
      have : ¬ elementToString { node with tagName := transformedNode.tag } ≠
          transformedNode.content := fun h => h (hflat.trans hcontent)
      rw [applyChanges, if_neg hnot, if_neg this]

/-- Claim C9 witness: the raw-changed branch (tag/content edits ignored),
the content-rewrite branch, and the unchanged branch, at concrete inputs
with concrete serializer and fragment parser. -/
theorem claim_C9_witness :
    applyChanges (fun _ => "orig") (fun _ => ⟨"div", []⟩)
      ⟨"h1", [Content.text "x"]⟩ ⟨"h2", "changed", "newC"⟩ = ⟨"div", []⟩ ∧
    (applyChanges (fun _ => "orig") (fun _ => ⟨"div", []⟩)
      ⟨"h1", [Content.text "x"]⟩ ⟨"h2", "orig", "newC"⟩).tagName = "h2" ∧
    (applyChanges (fun _ => "orig") (fun _ => ⟨"div", []⟩)
      ⟨"h1", [Content.text "x"]⟩ ⟨"h2", "orig", "newC"⟩).children =
      [Content.text "newC"] ∧
    (applyChanges (fun _ => "orig") (fun _ => ⟨"div", []⟩)
      ⟨"h1", [Content.text "x"]⟩ ⟨"h2", "orig", "x"⟩).children =
      [Content.text "x"] :=
  ⟨((claim_C9 (fun _ => "orig") (fun _ => ⟨"div", []⟩)
      ⟨"h1", [Content.text "x"]⟩ ⟨"h2", "changed", "newC"⟩).1 (by decide)).1,
    ((claim_C9 (fun _ => "orig") (fun _ => ⟨"div", []⟩)
      ⟨"h1", [Content.text "x"]⟩ ⟨"h2", "orig", "newC"⟩).2 rfl).1,
    (((claim_C9 (fun _ => "orig") (fun _ => ⟨"div", []⟩)
      ⟨"h1", [Content.text "x"]⟩ ⟨"h2", "orig", "newC"⟩).2 rfl).2.1 (by decide)),
    (((claim_C9 (fun _ => "orig") (fun _ => ⟨"div", []⟩)
      ⟨"h1", [Content.text "x"]⟩ ⟨"h2", "orig", "x"⟩).2 rfl).2.2 rfl)⟩

mutual

theorem textEvents_parent_path :
    ∀ (node : Content) (parent : Option (String × String)) (path : String),
      tagsDotFree node = true → parentPathOK parent path →
      ∀ e ∈ textEvents node parent path, ∀ pp pt,
        e.parent = some (pp, pt) → substringToLastDot e.path = pp
  | .text v, parent, path => by
    intro _ hp e he pp pt hpar
    rw [textEvents] at he
    rcases List.mem_singleton.mp he with rfl
    simp only at hpar
    subst hpar
    obtain ⟨hdot, i, rfl⟩ := hp
    exact substringToLastDot_childPath pp pt i hdot
  | .other, parent, path => by
    intro _ _ e he
    rw [textEvents] at he
    cases he
  | .element tagName children, parent, path => by
    intro hn hp e he pp pt hpar
    rw [textEvents] at he
    rw [tagsDotFree, Bool.and_eq_true, decide_eq_true_eq] at hn
    exact textEventsList_parent_path children tagName path 0 hn.2 hn.1 e he pp pt hpar

theorem textEventsList_parent_path :
    ∀ (cs : List Content) (tagName path : String) (i : Nat),
      tagsDotFreeList cs = true → '.' ∉ tagName.data →
      ∀ e ∈ textEventsList cs tagName path i, ∀ pp pt,
        e.parent = some (pp, pt) → substringToLastDot e.path = pp
  | [], _, _, _ => by
    intro _ _ e he
    rw [textEventsList] at he
    cases he
  | c :: cs, tagName, path, i => by
    intro hl ht e he pp pt hpar
    rw [textEventsList] at he
    rw [tagsDotFreeList, Bool.and_eq_true] at hl
    rcases List.mem_append.mp he with he | he
    · exact textEvents_parent_path c (some (path, tagName))
        (path ++ "." ++ tagName ++ "[" ++ toString i ++ "]")
        hl.1 ⟨ht, i, rfl⟩ e he pp pt hpar
    · exact textEventsList_parent_path cs tagName path (i + 1) hl.2 ht e he pp pt hpar

end

theorem rootTextEventsAux_parent_path (basePath : String) :
    ∀ (cs : List Content) (i : Nat), tagsDotFreeList cs = true →
      ∀ e ∈ rootTextEventsAux basePath cs i, ∀ pp pt,
        e.parent = some (pp, pt) → substringToLastDot e.path = pp
  | [], _ => by
    intro _ e he
    rw [rootTextEventsAux] at he
    cases he
  | c :: cs, i => by
    intro hl e he pp pt hpar
    rw [rootTextEventsAux] at he
    rw [tagsDotFreeList, Bool.and_eq_true] at hl
    rcases List.mem_append.mp he with he | he
    · exact textEvents_parent_path c none (basePath ++ "root[" ++ toString i ++ "]")
        hl.1 trivial e he pp pt hpar
    · exact rootTextEventsAux_parent_path basePath cs (i + 1) hl.2 e he pp pt hpar

theorem addRecords_id_provenance (content : String) (type : Option String)
    (path : String) (records : List DefaultSchemaElement)
    (strategy : MergeStrategy) :
    ∀ r ∈ addRecords content type path records strategy,
      (∃ r₀ ∈ records, r.id = r₀.id) ∨ r.id = substringToLastDot path := by
  have hext : ∀ rest lastRecord (r : DefaultSchemaElement) (c : String),
      r ∈ rest ++ [{ lastRecord with content := c }] →
      records = rest ++ [lastRecord] → (∃ r₀ ∈ records, r.id = r₀.id) := by
    intro rest lastRecord r c hr hrec
    rcases List.mem_append.mp hr with hr | hr
    · exact ⟨r, hrec ▸ List.mem_append_left _ hr, rfl⟩
    · rcases List.mem_singleton.mp hr with rfl
      exact ⟨lastRecord, hrec ▸ List.mem_append_right _ (List.mem_singleton.mpr rfl), rfl⟩
  intro r hr
  cases strategy with
  | merge =>
    cases hm : isRecordMergeable (substringToLastDot path) type records with
    | false =>
      rw [addRecords_merge_of_not content type path records hm] at hr
      rcases List.mem_append.mp hr with hr | hr
      · exact .inl ⟨r, hr, rfl⟩
      · rcases List.mem_singleton.mp hr with rfl
        exact .inr rfl
    | true =>
      rcases List.eq_nil_or_concat records with rfl | ⟨rest, lastRecord, rfl⟩
      · cases hm
      · rw [List.concat_eq_append] at *
        rw [addRecords_merge_of_yes content type path rest lastRecord hm] at hr
        exact .inl (hext rest lastRecord r _ hr rfl)
  | split =>
    rw [addRecords_split_eq] at hr
    rcases List.mem_append.mp hr with hr | hr
    · exact .inl ⟨r, hr, rfl⟩
    · rcases List.mem_singleton.mp hr with rfl
      exact .inr rfl
  | both =>
    cases hm : isRecordMergeable (substringToLastDot path) type records with
    | false =>
      rw [addRecords_both_of_not content type path records hm] at hr
      rcases List.mem_append.mp hr with hr | hr
      · exact .inl ⟨r, hr, rfl⟩
      · rcases List.mem_cons.mp hr with rfl | hr
        · exact .inr rfl
        · rcases List.mem_singleton.mp hr with rfl
          exact .inr rfl
    | true =>
      rcases List.eq_nil_or_concat records with rfl | ⟨rest, lastRecord, rfl⟩
      · cases hm
      · rw [List.concat_eq_append] at *
        rw [addRecords_both_of_yes content type path rest lastRecord hm] at hr
        have : rest ++ [⟨type, content, substringToLastDot path⟩,
            { lastRecord with content := lastRecord.content ++ " " ++ content }] =
            (rest ++ [⟨type, content, substringToLastDot path⟩]) ++
              [{ lastRecord with content := lastRecord.content ++ " " ++ content }] := by
          simp
        rw [this] at hr
        rcases List.mem_append.mp hr with hr | hr
        · rcases List.mem_append.mp hr with hr | hr
          · exact .inl ⟨r, List.mem_append_left _ hr, rfl⟩
          · rcases List.mem_singleton.mp hr with rfl
            exact .inr rfl
        · rcases List.mem_singleton.mp hr with rfl
          exact .inl ⟨lastRecord, List.mem_append_right _ (List.mem_singleton.mpr rfl), rfl⟩

theorem foldRecords_id_provenance (strategy : MergeStrategy) :
    ∀ (events : List TextEvent) (records : List DefaultSchemaElement),
      ∀ r ∈ foldRecords strategy events records,
        (∃ r₀ ∈ records, r.id = r₀.id) ∨
        ∃ e ∈ events, r.id = substringToLastDot e.path
  | [], records => by
    intro r hr
    exact .inl ⟨r, hr, rfl⟩
  | e :: events, records => by
    intro r hr
    have hstep := foldRecords_id_provenance strategy events
      (stepRecord strategy records e) r hr
    rcases hstep with ⟨r₀, hr₀, hid⟩ | ⟨e', he', hid⟩
    · rcases addRecords_id_provenance e.value (e.parent.map Prod.snd) e.path
        records strategy r₀ hr₀ with ⟨r₁, hr₁, hid₁⟩ | hid₁
      · exact .inl ⟨r₁, hr₁, hid.trans hid₁⟩
      · exact .inr ⟨e, List.mem_cons_self e events, hid.trans hid₁⟩
    · exact .inr ⟨e', List.mem_cons_of_mem e he', hid⟩

/-- Claim C6: when element tag names are dot-free (well-formed HTML tags),
every emitted record's id is the index-stripped path of the text node whose
visit created it — which, for a text node whose parent is an element, is
exactly that parent's own path (one level up from the text node). -/
theorem claim_C6 (basePath : Option String) (strategy : MergeStrategy)
    (tree : List Content) (h : tagsDotFreeList tree = true) :
    ∀ r ∈ rehypeLyra basePath strategy tree,
      ∃ e ∈ rootTextEvents basePath tree,
        r.id = substringToLastDot e.path ∧
        ∀ pp pt, e.parent = some (pp, pt) → r.id = pp := by
  intro r hr
  rw [rehypeLyra_eq_foldRecords] at hr
  rcases foldRecords_id_provenance strategy (rootTextEvents basePath tree) [] r hr with
    ⟨r₀, hr₀, _⟩ | ⟨e, he, hid⟩
  · cases hr₀
  · refine ⟨e, he, hid, fun pp pt hpar => ?_⟩
    rw [hid]
    exact rootTextEventsAux_parent_path (basePath.getD "") tree 0 h e he pp pt hpar

/-- Claim C6 witness: the one record of the walk over
`<p>hi</p>` has id `"root[0]"`, the path of its parent `p` element. -/
theorem claim_C6_witness :
    ∃ e ∈ rootTextEvents none [Content.element "p" [Content.text "hi"]],
      (⟨some "p", "hi", "root[0]"⟩ : DefaultSchemaElement).id =
        substringToLastDot e.path ∧
      ∀ pp pt, e.parent = some (pp, pt) →
        (⟨some "p", "hi", "root[0]"⟩ : DefaultSchemaElement).id = pp :=
  claim_C6 none .merge [Content.element "p" [Content.text "hi"]] (by decide)
    ⟨some "p", "hi", "root[0]"⟩ (by decide)

theorem dropWhile_eq_nil_of_forall {α : Type} (p : α → Bool) (l : List α)
    (h : ∀ a ∈ l, p a = true) : l.dropWhile p = [] := by
  induction l with
  | nil => rfl
  | cons a l ih =>
    rw [List.dropWhile_cons, if_pos (h a (List.mem_cons_self a l))]
    exact ih fun b hb => h b (List.mem_cons_of_mem a hb)

/-- Stripping at the last dot of a dot-free string yields the empty
string (JS `substring(0, -1)` clamps to `""`). -/
theorem substringToLastDot_no_dot (s : String) (h : '.' ∉ s.data) :
    substringToLastDot s = "" := by
  unfold substringToLastDot
  rw [dropWhile_eq_nil_of_forall]
  · rfl
  · intro a ha
    rw [List.mem_reverse] at ha
    have : a ≠ '.' := fun hEq => h (hEq ▸ ha)
    simpa using this

mutual

theorem textEvents_parent_isSome :
    ∀ (node : Content) (pr : String × String) (path : String),
      ∀ e ∈ textEvents node (some pr) path, e.parent.isSome = true
  | .text v, pr, path => by
    intro e he
    rcases List.mem_singleton.mp he with rfl
    rfl
  | .other, _, _ => by
    intro e he
    cases he
  | .element tagName children, pr, path => by
    intro e he
    rw [textEvents] at he
    exact textEventsList_parent_isSome children tagName path 0 e he

theorem textEventsList_parent_isSome :
    ∀ (cs : List Content) (tagName path : String) (i : Nat),
      ∀ e ∈ textEventsList cs tagName path i, e.parent.isSome = true
  | [], _, _, _ => by
    intro e he
    cases he
  | c :: cs, tagName, path, i => by
    intro e he
    rw [textEventsList] at he
    rcases List.mem_append.mp he with he | he
    · exact textEvents_parent_isSome c (path, tagName) _ e he
    · exact textEventsList_parent_isSome cs tagName path (i + 1) e he

end

theorem rootTextEventsAux_root_path (basePath : String) :
    ∀ (cs : List Content) (i : Nat),
      ∀ e ∈ rootTextEventsAux basePath cs i, e.parent = none →
        ∃ j : Nat, e.path = basePath ++ "root[" ++ toString j ++ "]"
  | [], _ => by
    intro e he
    cases he
  | c :: cs, i => by
    intro e he hnone
    rw [rootTextEventsAux] at he
    rcases List.mem_append.mp he with he | he
    · cases c with
      | text v =>
        rcases List.mem_singleton.mp he with rfl
        exact ⟨i, rfl⟩
      | other => cases he
      | element tagName children =>
        rw [textEvents] at he
        have := textEventsList_parent_isSome children tagName _ 0 e he
        rw [hnone] at this
        cases this
    · exact rootTextEventsAux_root_path basePath cs (i + 1) e he hnone

/-- Claim C10: a text node that is a direct top-level child of the root is
visited with path `basePath + "root[" + i + "]"`, whose computed record id
is `substringToLastDot basePath` — the full path truncated at the last dot
inside the base path, since `"root[i]"` itself contains no dot — so with no
base path configured the id is the empty string, as the concrete walk over
a top-level text node shows. -/
theorem claim_C10 (basePath : Option String) (tree : List Content) :
    (rehypeLyra none .merge [Content.text "hello"] =
      [⟨none, "hello", ""⟩]) ∧
    (∀ e ∈ rootTextEvents basePath tree, e.parent = none →
      substringToLastDot e.path = substringToLastDot (basePath.getD "")) ∧
    (∀ i : Nat, substringToLastDot ("root[" ++ toString i ++ "]") = "") ∧
    (∀ (b : String) (i : Nat),
      substringToLastDot (b ++ ("root[" ++ toString i ++ "]")) =
        substringToLastDot b) := by
  refine ⟨by decide, ?_, ?_, ?_⟩
  · intro e he hnone
    obtain ⟨j, hpath⟩ :=
      rootTextEventsAux_root_path (basePath.getD "") tree 0 e he hnone
    rw [hpath]
    have h1 : basePath.getD "" ++ "root[" ++ toString j ++ "]" =
        basePath.getD "" ++ ("root[" ++ toString j ++ "]") := by
      simp [String.append_assoc]
    rw [h1]
    exact substringToLastDot_append _ _ (rootSegment_no_dot j)
  · intro i
    exact substringToLastDot_no_dot _ (rootSegment_no_dot i)
  · intro b i
    exact substringToLastDot_append _ _ (rootSegment_no_dot i)

/-- Claim C10 witness: the top-level text event of the concrete walk, and
the base-path truncation at concrete inputs. -/
theorem claim_C10_witness :
    substringToLastDot (⟨"hello", "root[0]", none⟩ : TextEvent).path =
      substringToLastDot ((none : Option String).getD "") ∧
    substringToLastDot ("root[" ++ toString 7 ++ "]") = "" ∧
    substringToLastDot ("tests/file.md/" ++ ("root[" ++ toString 3 ++ "]")) =
      substringToLastDot "tests/file.md/" :=
  ⟨(claim_C10 none [Content.text "hello"]).2.1 ⟨"hello", "root[0]", none⟩
      (by decide) rfl,
    (claim_C10 none []).2.2.1 7,
    (claim_C10 none []).2.2.2 "tests/file.md/" 3⟩

mutual

theorem nodeLog_callPathOK (basePath : String) :
    ∀ (node : Content) (parent : Option (String × String)) (i : Nat) (path : String),
      callPathOK basePath ⟨parent, i, path⟩ →
      ∀ e ∈ nodeLog node parent i path, callPathOK basePath e
  | .text v, parent, i, path => by
    intro h e he
    rcases List.mem_singleton.mp he with rfl
    exact h
  | .other, parent, i, path => by
    intro h e he
    rcases List.mem_singleton.mp he with rfl
    exact h
  | .element tagName children, parent, i, path => by
    intro h e he
    rw [nodeLog] at he
    rcases List.mem_cons.mp he with rfl | he
    · exact h
    · exact childLogs_callPathOK basePath children tagName path 0 e he

theorem childLogs_callPathOK (basePath : String) :
    ∀ (cs : List Content) (tagName path : String) (i : Nat),
      ∀ e ∈ childLogs cs tagName path i, callPathOK basePath e
  | [], _, _, _ => by
    intro e he
    cases he
  | c :: cs, tagName, path, i => by
    intro e he
    rw [childLogs] at he
    rcases List.mem_append.mp he with he | he
    · exact nodeLog_callPathOK basePath c (some (path, tagName)) i _ (by simp [callPathOK]) e he
    · exact childLogs_callPathOK basePath cs tagName path (i + 1) e he

end

theorem rootLogAux_callPathOK (basePath : String) :
    ∀ (cs : List Content) (i : Nat),
      ∀ e ∈ rootLogAux basePath cs i, callPathOK basePath e
  | [], _ => by
    intro e he
    cases he
  | c :: cs, i => by
    intro e he
    rw [rootLogAux] at he
    rcases List.mem_append.mp he with he | he
    · exact nodeLog_callPathOK basePath c none i _ (by simp [callPathOK]) e he
    · exact rootLogAux_callPathOK basePath cs (i + 1) e he

/-- Claim C8: every visit call of the walk passes the path
`parentPath + "." + parentTag + "[" + i + "]"` for the child at sibling
index `i` of an element parent, and `basePath + "root[" + i + "]"` (empty
base path when absent) for the top-level child at index `i` of the root. -/
theorem claim_C8 (basePath : Option String) (tree : List Content) :
    ∀ e ∈ rootLog basePath tree,
      (e.parent = none →
        e.path = basePath.getD "" ++ "root[" ++ toString e.index ++ "]") ∧
      (∀ pp pt, e.parent = some (pp, pt) →
        e.path = pp ++ "." ++ pt ++ "[" ++ toString e.index ++ "]") := by
  intro e he
  have h := rootLogAux_callPathOK (basePath.getD "") tree 0 e he
  unfold callPathOK at h
  constructor
  · intro hnone
    cases hp : e.parent with
    | none => rw [hp] at h; exact h
    | some pr => rw [hp] at hnone; cases hnone
  · intro pp pt hsome
    rw [hsome] at h
    exact h

/-- Claim C8 witness: the three calls of the walk over `<p>hi</p>` with
base path `"f.html/"`, checked against the path formula. -/
theorem claim_C8_witness :
    ((⟨some ("f.html/root[0]", "p"), 0, "f.html/root[0].p[0]"⟩ : VisitCall).parent =
        none →
      (⟨some ("f.html/root[0]", "p"), 0, "f.html/root[0].p[0]"⟩ : VisitCall).path =
        (some "f.html/").getD "" ++ "root[" ++
          toString (⟨some ("f.html/root[0]", "p"), 0,
            "f.html/root[0].p[0]"⟩ : VisitCall).index ++ "]") ∧
    (∀ pp pt,
      (⟨some ("f.html/root[0]", "p"), 0, "f.html/root[0].p[0]"⟩ : VisitCall).parent =
          some (pp, pt) →
      (⟨some ("f.html/root[0]", "p"), 0, "f.html/root[0].p[0]"⟩ : VisitCall).path =
        pp ++ "." ++ pt ++ "[" ++
          toString (⟨some ("f.html/root[0]", "p"), 0,
            "f.html/root[0].p[0]"⟩ : VisitCall).index ++ "]") :=
  claim_C8 (some "f.html/") [Content.element "p" [Content.text "hi"]]
    ⟨some ("f.html/root[0]", "p"), 0, "f.html/root[0].p[0]"⟩ (by decide)

theorem addContentToLastRecordT_concat (init : List TracedRecord)
    (l : TracedRecord) (content : String) (k : Nat) :
    addContentToLastRecordT (init ++ [l]) content k =
      init ++ [⟨{ l.record with content := l.record.content ++ " " ++ content },
        l.origins ++ [k]⟩] := by
  unfold addContentToLastRecordT
  rw [List.getLast?_concat, List.dropLast_concat]

theorem spliceBeforeLastT_concat (init : List TracedRecord)
    (l r : TracedRecord) :
    spliceBeforeLastT (init ++ [l]) r = init ++ [r, l] := by
  unfold spliceBeforeLastT
  rw [List.dropLast_concat, List.length_append, List.length_singleton,
    Nat.add_sub_cancel, List.drop_left]

theorem eraseOrigins_nil : eraseOrigins [] = [] := rfl

theorem eraseOrigins_append (rs₁ rs₂ : List TracedRecord) :
    eraseOrigins (rs₁ ++ rs₂) = eraseOrigins rs₁ ++ eraseOrigins rs₂ :=
  List.map_append _ _ _

theorem eraseOrigins_addContentT (rs : List TracedRecord) (content : String)
    (k : Nat) :
    eraseOrigins (addContentToLastRecordT rs content k) =
      addContentToLastRecord (eraseOrigins rs) content := by
  rcases List.eq_nil_or_concat rs with rfl | ⟨init, l, rfl⟩
  · rfl
  · rw [List.concat_eq_append, addContentToLastRecordT_concat,
      eraseOrigins_append, eraseOrigins_append]
    show eraseOrigins init ++ [_] =
      addContentToLastRecord (eraseOrigins init ++ [l.record]) content
    rw [addContentToLastRecord_concat]

theorem eraseOrigins_spliceT (rs : List TracedRecord) (r : TracedRecord) :
    eraseOrigins (spliceBeforeLastT rs r) =
      spliceBeforeLast (eraseOrigins rs) r.record := by
  rcases List.eq_nil_or_concat rs with rfl | ⟨init, l, rfl⟩
  · rfl
  · rw [List.concat_eq_append, spliceBeforeLastT_concat, eraseOrigins_append]
    show eraseOrigins init ++ [r.record, l.record] =
      spliceBeforeLast (eraseOrigins (init ++ [l])) r.record
    rw [eraseOrigins_append]
    show _ = spliceBeforeLast (eraseOrigins init ++ [l.record]) r.record
    rw [spliceBeforeLast_concat]

theorem eraseOrigins_addRecordsT (k : Nat) (content : String)
    (type : Option String) (path : String) (rs : List TracedRecord)
    (strategy : MergeStrategy) :
    eraseOrigins (addRecordsT k content type path rs strategy) =
      addRecords content type path (eraseOrigins rs) strategy := by
  cases strategy with
  | merge =>
    cases hm : isRecordMergeable (substringToLastDot path) type (eraseOrigins rs) with
    | false =>
      rw [addRecords_merge_of_not _ _ _ _ hm]
      simp only [addRecordsT]
      rw [hm]
      simp [eraseOrigins]
    | true =>
      simp [addRecordsT, addRecords, hm, eraseOrigins_addContentT]
  | split =>
    simp [addRecordsT, addRecords, eraseOrigins]
  | both =>
    cases hm : isRecordMergeable (substringToLastDot path) type (eraseOrigins rs) with
    | false =>
      rw [addRecords_both_of_not _ _ _ _ hm]
      simp only [addRecordsT]
      rw [hm]
      simp [eraseOrigins]
    | true =>
      simp [addRecordsT, addRecords, hm, eraseOrigins_addContentT,
        eraseOrigins_spliceT]

theorem eraseOrigins_foldRecordsT (strategy : MergeStrategy) :
    ∀ (events : List TextEvent) (k : Nat) (rs : List TracedRecord),
      eraseOrigins (foldRecordsT strategy events k rs) =
        foldRecords strategy events (eraseOrigins rs)
  | [], _, rs => rfl
  | e :: events, k, rs => by
    rw [foldRecordsT]
    rw [eraseOrigins_foldRecordsT strategy events (k + 1) _]
    show foldRecords strategy events _ =
      foldRecords strategy events (stepRecord strategy (eraseOrigins rs) e)
    rw [eraseOrigins_addRecordsT]
    rfl

theorem beforeOrigins_singleton (r x : TracedRecord) (k : Nat)
    (hr : ∀ a ∈ r.origins, a < k) (hx : x.origins = [k]) :
    beforeOrigins r x := by
  intro _ a ha b hb
  rw [hx, List.mem_singleton] at hb
  exact hb ▸ hr a ha

theorem beforeOrigins_self_k (x y : TracedRecord) (k : Nat)
    (hx : x.origins = [k]) (hy : k ∈ y.origins) : beforeOrigins x y := by
  intro hdisj
  exact absurd hy (hdisj k (by rw [hx]; exact List.mem_singleton.mpr rfl))

theorem beforeOrigins_extend (r l : TracedRecord) (k : Nat)
    (hrl : beforeOrigins r l) (hr : ∀ a ∈ r.origins, a < k)
    (l' : TracedRecord) (hl' : l'.origins = l.origins ++ [k]) :
    beforeOrigins r l' := by
  intro hdisj a ha b hb
  rw [hl'] at hb
  rcases List.mem_append.mp hb with hb | hb
  · refine hrl (fun a' ha' hmem => ?_) a ha b hb
    exact hdisj a' ha' (by rw [hl']; exact List.mem_append_left _ hmem)
  · rw [List.mem_singleton] at hb
    exact hb ▸ hr a ha

theorem originsBound_succ (k : Nat) (rs : List TracedRecord)
    (hb : originsBound k rs) : originsBound (k + 1) rs :=
  fun r hr a ha => Nat.lt_succ_of_lt (hb r hr a ha)

theorem originsBound_append (k : Nat) (rs₁ rs₂ : List TracedRecord)
    (h1 : originsBound k rs₁) (h2 : originsBound k rs₂) :
    originsBound k (rs₁ ++ rs₂) :=
  fun r hr => (List.mem_append.mp hr).elim (h1 r) (h2 r)

theorem addRecordsT_invariant (k : Nat) (content : String)
    (type : Option String) (path : String) (strategy : MergeStrategy)
    (rs : List TracedRecord) (hb : originsBound k rs)
    (hp : List.Pairwise beforeOrigins rs) :
    originsBound (k + 1) (addRecordsT k content type path rs strategy) ∧
    List.Pairwise beforeOrigins (addRecordsT k content type path rs strategy) := by
  have hxbound : originsBound (k + 1)
      [(⟨⟨type, content, substringToLastDot path⟩, [k]⟩ : TracedRecord)] := by
    intro r hr a ha
    rcases List.mem_singleton.mp hr with rfl
    rw [List.mem_singleton.mp ha]
    exact Nat.lt_succ_self k
  have hxxbound : originsBound (k + 1)
      [(⟨⟨type, content, substringToLastDot path⟩, [k]⟩ : TracedRecord),
        ⟨⟨type, content, substringToLastDot path⟩, [k]⟩] := by
    intro r hr a ha
    rcases List.mem_cons.mp hr with rfl | hr
    · rw [List.mem_singleton.mp ha]; exact Nat.lt_succ_self k
    · rcases List.mem_singleton.mp hr with rfl
      rw [List.mem_singleton.mp ha]; exact Nat.lt_succ_self k
  cases strategy with
  | merge =>
    cases hm : isRecordMergeable (substringToLastDot path) type (eraseOrigins rs) with
    | false =>
      simp only [addRecordsT]
      rw [hm]
      simp only [Bool.not_false, if_true]
      refine ⟨originsBound_append _ _ _ (originsBound_succ k rs hb) hxbound, ?_⟩
      rw [List.pairwise_append]
      refine ⟨hp, by simp, ?_⟩
      intro r hr x hx
      rcases List.mem_singleton.mp hx with rfl
      exact beforeOrigins_singleton r _ k (hb r hr) rfl
    | true =>
      have hne : rs ≠ [] := by
        intro h0
        subst h0
        simp [eraseOrigins, isRecordMergeable] at hm
      rcases List.eq_nil_or_concat rs with h0 | ⟨init, l, rfl⟩
      · exact absurd h0 hne
      · rw [List.concat_eq_append] at *
        simp only [addRecordsT]
        rw [hm]
        simp only [Bool.not_true, if_false]
        rw [addContentToLastRecordT_concat]
        obtain ⟨hpInit, _, hcross⟩ := List.pairwise_append.mp hp
        constructor
        · refine originsBound_append _ _ _
            (originsBound_succ _ _ (fun r hr a ha => hb r (List.mem_append_left _ hr) a ha)) ?_
          intro r hr a ha
          rcases List.mem_singleton.mp hr with rfl
          rcases List.mem_append.mp ha with ha | ha
          · exact Nat.lt_succ_of_lt
              (hb l (List.mem_append_right _ (List.mem_singleton.mpr rfl)) a ha)
          · rw [List.mem_singleton.mp ha]; exact Nat.lt_succ_self k
        · refine List.pairwise_append.mpr ⟨hpInit, by simp, ?_⟩
          intro r hr x hx
          rcases List.mem_singleton.mp hx with rfl
          exact beforeOrigins_extend r l k
            (hcross r hr l (List.mem_singleton.mpr rfl))
            (fun a ha => hb r (List.mem_append_left _ hr) a ha) _ rfl
  | split =>
    simp only [addRecordsT]
    refine ⟨originsBound_append _ _ _ (originsBound_succ k rs hb) hxbound, ?_⟩
    rw [List.pairwise_append]
    refine ⟨hp, by simp, ?_⟩
    intro r hr x hx
    rcases List.mem_singleton.mp hx with rfl
    exact beforeOrigins_singleton r _ k (hb r hr) rfl
  | both =>
    cases hm : isRecordMergeable (substringToLastDot path) type (eraseOrigins rs) with
    | false =>
      simp only [addRecordsT]
      rw [hm]
      simp only [Bool.not_false, if_true]
      refine ⟨originsBound_append _ _ _ (originsBound_succ k rs hb) hxxbound, ?_⟩
      rw [List.pairwise_append]
      refine ⟨hp, ?_, ?_⟩
      · rw [List.pairwise_cons]
        refine ⟨?_, by simp⟩
        intro x hx
        rcases List.mem_singleton.mp hx with rfl
        exact beforeOrigins_self_k _ _ k rfl (List.mem_singleton.mpr rfl)
      · intro r hr x hx
        rcases List.mem_cons.mp hx with rfl | hx
        · exact beforeOrigins_singleton r _ k (hb r hr) rfl
        · rcases List.mem_singleton.mp hx with rfl
          exact beforeOrigins_singleton r _ k (hb r hr) rfl
    | true =>
      have hne : rs ≠ [] := by
        intro h0
        subst h0
        simp [eraseOrigins, isRecordMergeable] at hm
      rcases List.eq_nil_or_concat rs with h0 | ⟨init, l, rfl⟩
      · exact absurd h0 hne
      · rw [List.concat_eq_append] at *
        simp only [addRecordsT]
        rw [hm]
        simp only [Bool.not_true, if_false]
        rw [spliceBeforeLastT_concat]
        have hsplit : init ++ [(⟨⟨type, content, substringToLastDot path⟩, [k]⟩ : TracedRecord), l] =
            (init ++ [⟨⟨type, content, substringToLastDot path⟩, [k]⟩]) ++ [l] := by
          simp
        rw [hsplit, addContentToLastRecordT_concat]
        obtain ⟨hpInit, _, hcross⟩ := List.pairwise_append.mp hp
        have hbInit : originsBound k init :=
          fun r hr a ha => hb r (List.mem_append_left _ hr) a ha
        have hbl : ∀ a ∈ l.origins, a < k :=
          hb l (List.mem_append_right _ (List.mem_singleton.mpr rfl))
        constructor
        · refine originsBound_append _ _ _
            (originsBound_append _ _ _ (originsBound_succ _ _ hbInit) hxbound) ?_
          intro r hr a ha
          rcases List.mem_singleton.mp hr with rfl
          rcases List.mem_append.mp ha with ha | ha
          · exact Nat.lt_succ_of_lt (hbl a ha)
          · rw [List.mem_singleton.mp ha]; exact Nat.lt_succ_self k
        · refine List.pairwise_append.mpr ⟨?_, by simp, ?_⟩
          · refine List.pairwise_append.mpr ⟨hpInit, by simp, ?_⟩
            intro r hr x hx
            rcases List.mem_singleton.mp hx with rfl
            exact beforeOrigins_singleton r _ k (hbInit r hr) rfl
          · intro r hr x hx
            rcases List.mem_singleton.mp hx with rfl
            rcases List.mem_append.mp hr with hr | hr
            · exact beforeOrigins_extend r l k
                (hcross r hr l (List.mem_singleton.mpr rfl))
                (hbInit r hr) _ rfl
            · rcases List.mem_singleton.mp hr with rfl
              exact beforeOrigins_self_k _ _ k rfl
                (List.mem_append_right _ (List.mem_singleton.mpr rfl))

theorem foldRecordsT_pairwise (strategy : MergeStrategy) :
    ∀ (events : List TextEvent) (k : Nat) (rs : List TracedRecord),
      originsBound k rs → List.Pairwise beforeOrigins rs →
      List.Pairwise beforeOrigins (foldRecordsT strategy events k rs)
  | [], _, _ => fun _ hp => hp
  | e :: events, k, rs => fun hb hp => by
    rw [foldRecordsT]
    obtain ⟨hb', hp'⟩ := addRecordsT_invariant k e.value (e.parent.map Prod.snd)
      e.path strategy rs hb hp
    exact foldRecordsT_pairwise strategy events (k + 1) _ hb' hp'

theorem addRecords_take_prefix (content : String) (type : Option String)
    (path : String) (records : List DefaultSchemaElement)
    (strategy : MergeStrategy) :
    (addRecords content type path records strategy).take (records.length - 1) =
      records.take (records.length - 1) := by
  have htake : ∀ l₂ : List DefaultSchemaElement,
      (records ++ l₂).take (records.length - 1) =
        records.take (records.length - 1) :=
    fun l₂ => List.take_append_of_le_length (Nat.sub_le _ _)
  cases strategy with
  | merge =>
    cases hm : isRecordMergeable (substringToLastDot path) type records with
    | false =>
      rw [addRecords_merge_of_not _ _ _ _ hm]
      exact htake _
    | true =>
      have hne : records ≠ [] := by
        intro h0; subst h0; simp [isRecordMergeable] at hm
      rcases List.eq_nil_or_concat records with h0 | ⟨init, l, rfl⟩
      · exact absurd h0 hne
      · rw [List.concat_eq_append] at *
        rw [addRecords_merge_of_yes _ _ _ _ _ hm]
        have hlen : (init ++ [l]).length - 1 = init.length := by simp
        rw [hlen, List.take_left, List.take_left]
  | split =>
    rw [addRecords_split_eq]
    exact htake _
  | both =>
    cases hm : isRecordMergeable (substringToLastDot path) type records with
    | false =>
      rw [addRecords_both_of_not _ _ _ _ hm]
      exact htake _
    | true =>
      have hne : records ≠ [] := by
        intro h0; subst h0; simp [isRecordMergeable] at hm
      rcases List.eq_nil_or_concat records with h0 | ⟨init, l, rfl⟩
      · exact absurd h0 hne
      · rw [List.concat_eq_append] at *
        rw [addRecords_both_of_yes _ _ _ _ _ hm]
        have hlen : (init ++ [l]).length - 1 = init.length := by simp
        rw [hlen, List.take_left, List.take_left]

/-- Claim C7: the walk's record list is the origin-erasure of the traced
replay; in the traced replay, any two records with no shared originating
text node appear in visitation order (all origins of the earlier record
precede all origins of the later one); and no `addRecords` call under any
strategy disturbs the previously emitted records before the last one. -/
theorem claim_C7 (basePath : Option String) (strategy : MergeStrategy)
    (tree : List Content) :
    rehypeLyra basePath strategy tree =
      eraseOrigins (foldRecordsT strategy (rootTextEvents basePath tree) 0 []) ∧
    List.Pairwise beforeOrigins
      (foldRecordsT strategy (rootTextEvents basePath tree) 0 []) ∧
    ∀ (content : String) (type : Option String) (path : String)
        (records : List DefaultSchemaElement),
      (addRecords content type path records strategy).take (records.length - 1) =
        records.take (records.length - 1) := by
  refine ⟨?_, ?_, fun c t p records => addRecords_take_prefix c t p records strategy⟩
  · rw [rehypeLyra_eq_foldRecords, eraseOrigins_foldRecordsT]
    rfl
  · exact foldRecordsT_pairwise strategy _ 0 []
      (fun r hr => absurd hr (List.not_mem_nil r)) List.Pairwise.nil
